import Mathlib

/-!
# Verification of the multi-architecture package-lock unification algorithm

This file gives a shallow embedding, in Lean 4, of the `unify` function of
`internal/provider/config_data_source.go` together with the auxiliary data
it operates on (`resolved` structs, Go string sets and maps), and proves or
refutes the specified properties of that function.

Modelling conventions:
* Go `sets.Set[string]` (a `map[string]struct{}`) is modelled as `Finset String`.
  Go set equality (`Set.Equal`) is semantic equality, which coincides with
  `Finset` equality.
* Go `map[string]V` is modelled as `Finmap (fun _ : String => V)`.  Go map reads
  return the zero value for absent keys, modelled by `Option.getD` with the zero
  value (`""` for strings, `∅` for sets).  `reflect.DeepEqual` on two maps is
  key-set equality plus value equality, which coincides with `Finmap` equality.
  The one place where this normalises Go behaviour: Go distinguishes a `nil`
  set/map from an empty non-nil one inside `reflect.DeepEqual`; the model
  identifies the two (a nil set behaves exactly like an empty set in every set
  operation the code performs, so the distinction is observable only inside the
  fast-path `DeepEqual` test).
* Go map/set iteration order is unspecified; wherever the code's result does not
  depend on that order (each loop body acts on per-key data only, or the result
  is sorted afterwards), the model iterates in sorted key order.
* `sort.Strings` and `sets.List` sort byte-wise lexicographically on UTF-8
  strings; since UTF-8 preserves code-point order this is exactly code-point
  lexicographic order, defined below as `strLe`.
-/

/-- Boolean lexicographic order on lists of characters (code-point order).
This is the order `sort.Strings` and `sets.List` use, transported to `List Char`. -/
def listLeb : List Char → List Char → Bool
  | [], _ => true
  | _ :: _, [] => false
  | a :: as, b :: bs => if a < b then true else if b < a then false else listLeb as bs

/-- Lexicographic order on strings, as used by `sort.Strings` / `sets.List`. -/
def strLe (a b : String) : Prop := listLeb a.data b.data = true

instance : DecidableRel strLe := fun _ _ => inferInstanceAs (Decidable (_ = true))

theorem listLeb_refl : ∀ a : List Char, listLeb a a = true
  | [] => rfl
  | _ :: as => by simp [listLeb, listLeb_refl as]

theorem listLeb_total : ∀ a b : List Char, listLeb a b = true ∨ listLeb b a = true
  | [], _ => Or.inl rfl
  | _ :: _, [] => Or.inr rfl
  | a :: as, b :: bs => by
    simp only [listLeb]
    rcases lt_trichotomy a b with h | h | h
    · simp [h]
    · subst h
      simpa [lt_irrefl] using listLeb_total as bs
    · simp [h, not_lt.mpr h.le, h.ne']

theorem listLeb_antisymm : ∀ a b : List Char, listLeb a b = true → listLeb b a = true → a = b
  | [], [], _, _ => rfl
  | [], _ :: _, _, h => by simp [listLeb] at h
  | _ :: _, [], h, _ => by simp [listLeb] at h
  | a :: as, b :: bs, h1, h2 => by
    simp only [listLeb] at h1 h2
    rcases lt_trichotomy a b with h | h | h
    · simp [h, not_lt.mpr h.le, h.ne'] at h2
    · subst h
      simp only [lt_irrefl, if_false] at h1 h2
      rw [listLeb_antisymm as bs h1 h2]
    · simp [h, not_lt.mpr h.le, h.ne'] at h1

theorem listLeb_trans :
    ∀ a b c : List Char, listLeb a b = true → listLeb b c = true → listLeb a c = true
  | [], _, _, _, _ => rfl
  | _ :: _, [], _, h, _ => by simp [listLeb] at h
  | _ :: _, _ :: _, [], _, h => by simp [listLeb] at h
  | a :: as, b :: bs, c :: cs, h1, h2 => by
    simp only [listLeb] at h1 h2 ⊢
    rcases lt_trichotomy a b with hab | hab | hab
    · rcases lt_trichotomy b c with hbc | hbc | hbc
      · simp [hab.trans hbc]
      · rw [← hbc]; simp [hab]
      · simp [hbc, not_lt.mpr hbc.le, hbc.ne'] at h2
    · subst hab
      rcases lt_trichotomy a c with hbc | hbc | hbc
      · simp [hbc]
      · subst hbc
        simp only [lt_irrefl, if_false] at h1 h2 ⊢
        exact listLeb_trans as bs cs h1 h2
      · simp [hbc, not_lt.mpr hbc.le, hbc.ne'] at h2
    · simp [hab, not_lt.mpr hab.le, hab.ne'] at h1

instance : IsRefl String strLe := ⟨fun a => listLeb_refl a.data⟩

instance : IsTrans String strLe :=
  ⟨fun a b c h1 h2 => listLeb_trans a.data b.data c.data h1 h2⟩

instance : IsAntisymm String strLe :=
  ⟨fun a b h1 h2 => by
    cases a; cases b
    exact congrArg String.mk (listLeb_antisymm _ _ h1 h2)⟩

instance : IsTotal String strLe := ⟨fun a b => listLeb_total a.data b.data⟩

/-- `List.orderedInsert` into a list is left-commutative for a total, transitive,
antisymmetric relation; this lets it be folded over a `Multiset`. -/
theorem orderedInsert_left_comm {α : Type} (r : α → α → Prop) [DecidableRel r]
    [IsTotal α r] [IsTrans α r] [IsAntisymm α r] (a b : α) :
    ∀ l : List α, List.orderedInsert r a (List.orderedInsert r b l) =
      List.orderedInsert r b (List.orderedInsert r a l) := by
  -- Without loss of generality `r a b`; if both directions hold, `a = b`.
  suffices H : ∀ x y : α, r x y →
      ∀ l : List α, List.orderedInsert r x (List.orderedInsert r y l) =
        List.orderedInsert r y (List.orderedInsert r x l) by
    rcases IsTotal.total (r := r) a b with h | h
    · exact H a b h
    · exact fun l => (H b a h l).symm
  intro x y hxy l
  by_cases hyx : r y x
  · rw [IsAntisymm.antisymm x y hxy hyx]
  induction l with
  | nil =>
    simp only [List.orderedInsert, if_pos hxy, if_neg hyx]
  | cons c l ih =>
    by_cases hyc : r y c
    · have hxc : r x c := IsTrans.trans x y c hxy hyc
      simp only [List.orderedInsert, if_pos hyc, if_pos hxc, if_pos hxy, if_neg hyx]
    · by_cases hxc : r x c
      · simp only [List.orderedInsert, if_neg hyc, if_pos hxc, if_neg hyx]
      · simp only [List.orderedInsert, if_neg hyc, if_neg hxc, ih]

instance : LeftCommutative (List.orderedInsert strLe) :=
  ⟨fun a b l => orderedInsert_left_comm strLe a b l⟩

/-- The sorted list of elements of a finite set of strings; models Go's
`sets.List`, which returns the set's elements sorted by `sort.Strings`. -/
def sortFinset (s : Finset String) : List String :=
  Multiset.foldr (List.orderedInsert strLe) [] s.val

theorem foldr_orderedInsert_perm :
    ∀ l : List String, List.Perm (List.foldr (List.orderedInsert strLe) [] l) l
  | [] => List.Perm.nil
  | a :: l =>
    (List.perm_orderedInsert _ _ _).trans ((foldr_orderedInsert_perm l).cons a)

theorem sortFinset_perm (s : Finset String) : (sortFinset s : Multiset String) = s.val := by
  rcases s with ⟨val, nodup⟩
  induction val using Quot.ind with
  | _ l =>
    exact Quot.sound (foldr_orderedInsert_perm l)

theorem mem_sortFinset {a : String} {s : Finset String} : a ∈ sortFinset s ↔ a ∈ s := by
  have h := sortFinset_perm s
  constructor
  · intro hm
    exact Finset.mem_def.mpr (h ▸ Multiset.mem_coe.mpr hm)
  · intro hm
    exact Multiset.mem_coe.mp (h.symm ▸ Finset.mem_def.mp hm)

theorem sortFinset_nodup (s : Finset String) : (sortFinset s).Nodup := by
  have h := sortFinset_perm s
  have := s.nodup
  rw [← h] at this
  exact Multiset.coe_nodup.mp this

theorem foldr_orderedInsert_sorted :
    ∀ l : List String, List.Sorted strLe (List.foldr (List.orderedInsert strLe) [] l)
  | [] => List.sorted_nil
  | a :: l => (foldr_orderedInsert_sorted l).orderedInsert a _

theorem sortFinset_sorted (s : Finset String) : List.Sorted strLe (sortFinset s) := by
  rcases s with ⟨val, nodup⟩
  induction val using Quot.ind with
  | _ l =>
    exact foldr_orderedInsert_sorted l

/-! ## Data model

`resolved` is the Go struct of the same name in
`internal/provider/config_data_source.go`: one architecture's resolution
(`arch`, the set of resolved package names, the name → exact version map, and
the name → provided-capabilities map). -/

/-- Go `map[string]string`. -/
abbrev VersionMap : Type := Finmap (fun _ : String => String)

/-- Go `map[string]sets.Set[string]`. -/
abbrev SetMap : Type := Finmap (fun _ : String => Finset String)

/-- Go map read `m[k]` on a `map[string]string`: zero value `""` when absent. -/
def mapGetD (m : VersionMap) (k : String) : String := (m.lookup k).getD ""

/-- Go map read `m[k]` on a `map[string]sets.Set[string]`: a `nil` set when
absent, which behaves as the empty set in every operation performed on it. -/
def setGetD (m : SetMap) (k : String) : Finset String := (m.lookup k).getD ∅

/-- The `resolved` struct: one architecture's package resolution. -/
structure Resolved where
  arch : String
  packages : Finset String
  versions : VersionMap
  provided : SetMap
deriving DecidableEq

/-- Diagnostic severity: `diag.NewErrorDiagnostic` / `diag.NewWarningDiagnostic`. -/
inductive Severity where
  | err : Severity
  | warn : Severity
deriving DecidableEq

/-- A diagnostic, as produced by the terraform-plugin-framework constructors:
a severity, a summary and a detail string. -/
structure Diag where
  severity : Severity
  summary : String
  detail : String
deriving DecidableEq

/-! ## The original-specifier parser

In `unify`, each original package specifier is split at the first occurrence of
one of the characters `=<>~` (`strings.IndexAny(orig, "=<>~")`); the name is the
part before that character and the stored "version" is
`strings.TrimPrefix(orig, name)`, i.e. the remainder from that character on
(the whole constraint, operator included). -/

/-- The delimiter characters of `strings.IndexAny(orig, "=<>~")`. -/
def isConstraintChar (c : Char) : Bool := c = '=' || c = '<' || c = '>' || c = '~'

/-- The package name of an original specifier: everything before the first
constraint character (the whole string when there is none). -/
def splitName (orig : String) : String :=
  String.mk (orig.data.takeWhile (fun c => ¬ isConstraintChar c))

/-- The retained constraint of an original specifier:
`strings.TrimPrefix(orig, splitName orig)`, i.e. everything from the first
constraint character on (empty when there is none). -/
def splitConstraint (orig : String) : String :=
  String.mk (orig.data.dropWhile (fun c => ¬ isConstraintChar c))

/-- `originalPackages.packages`: the set of parsed names of the declared list. -/
def originalNames (originals : List String) : Finset String :=
  originals.foldl (fun s orig => insert (splitName orig) s) ∅

/-- `originalPackages.versions`: parsed name → retained constraint (operator
included); a later duplicate name overwrites an earlier one, as in a Go map. -/
def originalVersions (originals : List String) : VersionMap :=
  originals.foldl (fun m orig => m.insert (splitName orig) (splitConstraint orig)) ∅

/-! ## The folding step

One iteration of `for _, next := range inputs[1:]`.  The fast path compares
`acc.versions`/`acc.provided` with `next`'s by `reflect.DeepEqual`.  Otherwise
the packages absent from `next.packages` are deleted
(`acc.packages.Delete(acc.packages.Difference(next.packages)...)`, i.e. the
intersection with `next.packages` remains), and then each package in a snapshot
of the remaining set is checked: a version disagreement deletes it from all
three fields, and a `provides` disagreement narrows `acc.provided[pkg]` to the
intersection.  The Go snapshot (`UnsortedList`) has unspecified order and each
iteration only touches its own package's entries; the model walks the snapshot
in sorted order. -/

/-- The first check of the body of
`for _, pkg := range acc.packages.UnsortedList()`: delete `pkg` from all three
fields when its version disagrees with `next`'s. -/
def narrowVersion (next st : Resolved) (pkg : String) : Resolved :=
  if mapGetD st.versions pkg ≠ mapGetD next.versions pkg then
    { st with
        packages := st.packages.erase pkg,
        versions := st.versions.erase pkg,
        provided := st.provided.erase pkg }
  else st

/-- The second check of the loop body: narrow `acc.provided[pkg]` to the
intersection with `next.provided[pkg]` when the two sets differ. -/
def narrowProvided (next st : Resolved) (pkg : String) : Resolved :=
  if setGetD st.provided pkg ≠ setGetD next.provided pkg then
    { st with
        provided :=
          st.provided.insert pkg (setGetD st.provided pkg ∩ setGetD next.provided pkg) }
  else st

/-- The whole loop body: the version check, then the provided check on its
result (the second check runs even after a deletion, re-adding an empty entry
when `next.provided[pkg]` is non-empty, exactly as the Go code does). -/
def narrowPkg (next st : Resolved) (pkg : String) : Resolved :=
  narrowProvided next (narrowVersion next st pkg) pkg

/-- One fold step of `unify`'s accumulator with the next architecture. -/
def unifyStep (acc next : Resolved) : Resolved :=
  if acc.versions = next.versions ∧ acc.provided = next.provided then
    acc
  else
    (sortFinset (acc.packages ∩ next.packages)).foldl (narrowPkg next)
      { acc with packages := acc.packages ∩ next.packages }

/-- The accumulator after folding all architectures: seeded from the first
architecture (`packages` cloned, `versions` copied; `provided` is *aliased*, not
copied, in the Go code — the fold mutates `inputs[0].provided` in place, so this
is also the value `inputs[0].provided` holds after `unify` returns).  The Go
accumulator leaves `arch` at its zero value. -/
def accAfter (in0 : Resolved) (rest : List Resolved) : Resolved :=
  rest.foldl unifyStep
    { arch := "", packages := in0.packages, versions := in0.versions, provided := in0.provided }

/-! ## Missing-package reconciliation and diagnostics -/

/-- The rescue pass: `for _, provider := range acc.provided { if provider.HasAny(missing...)
{ missing = missing.Difference(provider) } }`.  A `nil` provider is skipped, which
is the same as skipping an empty one.  Map iteration order is unspecified and
the result does not depend on it; the model walks keys in sorted order. -/
def rescue (provided : SetMap) (missing : Finset String) : Finset String :=
  (sortFinset provided.keys).foldl
    (fun miss k =>
      if ((setGetD provided k) ∩ miss).Nonempty then miss \ setGetD provided k else miss)
    missing

/-- The version-cluster map for one missing package: every input architecture's
`arch` is added to the cluster keyed by `in.versions[pkg]` (the zero value `""`
when the architecture did not resolve `pkg` at all). -/
def clusters (inputs : List Resolved) (pkg : String) : SetMap :=
  inputs.foldl
    (fun s i =>
      s.insert (mapGetD i.versions pkg) (setGetD s (mapGetD i.versions pkg) ∪ {i.arch}))
    ∅

/-- The rendered, sorted version clusters for one missing package:
`"<version> (<arch1>, <arch2>, ...)"`, with the arch list sorted (`sets.List`)
and the cluster list sorted (`sort.Strings`). -/
def clusterStrings (inputs : List Resolved) (pkg : String) : List String :=
  List.insertionSort strLe
    ((sortFinset (clusters inputs pkg).keys).map
      (fun v =>
        v ++ " (" ++ String.intercalate ", " (sortFinset (setGetD (clusters inputs pkg) v)) ++ ")"))

/-- One error diagnostic per still-missing package, in sorted package order. -/
def errorDiags (inputs : List Resolved) (missing : Finset String) : List Diag :=
  (sortFinset missing).map
    (fun pkg =>
      Diag.mk Severity.err
        ("Unable to lock package \"" ++ pkg ++ "\" to a consistent version")
        (String.intercalate ", " (clusterStrings inputs pkg)))

/-- The per-architecture warnings: for each input in order, the packages it
resolved that are neither unified nor missing, rendered as Go's `fmt.Sprint` of
a sorted string slice (`[a b c]`). -/
def warnDiags (inputs : List Resolved) (accPackages missing : Finset String) : List Diag :=
  inputs.filterMap
    (fun input =>
      let missingHere := (input.packages \ accPackages) \ missing
      if missingHere = ∅ then none
      else
        some (Diag.mk Severity.warn
          ("unable to lock certain packages for " ++ input.arch)
          ("[" ++ String.intercalate " " (sortFinset missingHere) ++ "]")))

/-- The missing set after the rescue pass: the declared names absent from the
folded accumulator, minus everything rescued by a surviving `provided` entry.
The Go code only runs the rescue loop when the pre-rescue set is non-empty (the
guard skips a no-op). -/
def missingAfter (originals : List String) (in0 : Resolved) (rest : List Resolved) :
    Finset String :=
  let acc := accAfter in0 rest
  let missing0 := originalNames originals \ acc.packages
  if missing0 = ∅ then missing0 else rescue acc.provided missing0

/-- The body of `unify` for a non-empty originals list; `in0` is `inputs[0]`
and `rest` is `inputs[1:]`.  Mirrors the Go control flow (the Go guard that
skips error synthesis when the missing set is empty skips a no-op, since no
diagnostics are produced from an empty set). -/
def unifyCore (originals : List String) (in0 : Resolved) (rest : List Resolved) :
    List String × List Diag :=
  let inputs := in0 :: rest
  let acc := accAfter in0 rest
  let missing := missingAfter originals in0 rest
  let errs := errorDiags inputs missing
  let pl1 := (sortFinset missing).map
    (fun pkg =>
      let ver := mapGetD (originalVersions originals) pkg
      if ver ≠ "" then pkg ++ ver else pkg)
  let pl2 := (sortFinset acc.packages).map
    (fun pkg => pkg ++ "=" ++ mapGetD acc.versions pkg)
  let warns := warnDiags inputs acc.packages missing
  (pl1 ++ pl2, errs ++ warns)

/-- `unify(originals, inputs)`.  An empty originals list returns immediately
with empty output.  Otherwise the code reads `inputs[0]`; on an empty inputs
slice that access is out of bounds (a Go panic), modelled as `none`. -/
def unify (originals : List String) (inputs : List Resolved) :
    Option (List String × List Diag) :=
  if originals = [] then some ([], [])
  else
    match inputs with
    | [] => none
    | in0 :: rest => some (unifyCore originals in0 rest)

/-! ## Properties of the loop body

Each iteration of the per-package loop touches only the entries keyed by its
own `pkg`; the facts below capture that locality together with the effect on
`pkg` itself, and are the basis for every theorem about the fold. -/

theorem narrowVersion_arch (next st : Resolved) (pkg : String) :
    (narrowVersion next st pkg).arch = st.arch := by
  unfold narrowVersion
  split <;> rfl

theorem narrowVersion_packages_subset (next st : Resolved) (pkg : String) :
    (narrowVersion next st pkg).packages ⊆ st.packages := by
  unfold narrowVersion
  split
  · exact Finset.erase_subset pkg st.packages
  · exact Finset.Subset.refl _

theorem narrowVersion_mem_ne (next st : Resolved) {p pkg : String} (h : p ≠ pkg) :
    p ∈ (narrowVersion next st pkg).packages ↔ p ∈ st.packages := by
  unfold narrowVersion
  split
  · simp [Finset.mem_erase, h]
  · exact Iff.rfl

theorem narrowVersion_versions_ne (next st : Resolved) {p pkg : String} (h : p ≠ pkg) :
    (narrowVersion next st pkg).versions.lookup p = st.versions.lookup p := by
  unfold narrowVersion
  split
  · exact Finmap.lookup_erase_ne h
  · rfl

theorem narrowVersion_provided_ne (next st : Resolved) {p pkg : String} (h : p ≠ pkg) :
    (narrowVersion next st pkg).provided.lookup p = st.provided.lookup p := by
  unfold narrowVersion
  split
  · exact Finmap.lookup_erase_ne h
  · rfl

theorem narrowVersion_versions_of_mem (next st : Resolved) {p pkg : String}
    (h : p ∈ (narrowVersion next st pkg).packages) :
    (narrowVersion next st pkg).versions.lookup p = st.versions.lookup p := by
  by_cases hp : p = pkg
  · subst hp
    revert h
    unfold narrowVersion
    split
    · intro h
      simp [Finset.mem_erase] at h
    · intro _
      rfl
  · exact narrowVersion_versions_ne next st hp

theorem narrowVersion_agrees (next st : Resolved) {pkg : String}
    (h : pkg ∈ (narrowVersion next st pkg).packages) :
    mapGetD st.versions pkg = mapGetD next.versions pkg := by
  revert h
  unfold narrowVersion
  split
  · intro h
    simp [Finset.mem_erase] at h
  · intro _
    by_contra hne
    simp_all

theorem narrowVersion_provided_subset (next st : Resolved) (pkg p : String) :
    setGetD (narrowVersion next st pkg).provided p ⊆ setGetD st.provided p := by
  unfold narrowVersion
  split
  · by_cases hp : p = pkg
    · subst hp
      simp [setGetD, Finmap.lookup_erase]
    · rw [show ({ st with
          packages := st.packages.erase pkg,
          versions := st.versions.erase pkg,
          provided := st.provided.erase pkg } : Resolved).provided = st.provided.erase pkg
          from rfl]
      rw [setGetD, Finmap.lookup_erase_ne hp]
      exact Finset.Subset.refl _
  · exact Finset.Subset.refl _

theorem narrowVersion_versions_cases (next st : Resolved) (pkg p : String) :
    (narrowVersion next st pkg).versions.lookup p = st.versions.lookup p ∨
      (narrowVersion next st pkg).versions.lookup p = none := by
  unfold narrowVersion
  split
  · by_cases hp : p = pkg
    · subst hp
      exact Or.inr (Finmap.lookup_erase _ _)
    · exact Or.inl (Finmap.lookup_erase_ne hp)
  · exact Or.inl rfl

theorem narrowProvided_packages (next st : Resolved) (pkg : String) :
    (narrowProvided next st pkg).packages = st.packages := by
  unfold narrowProvided
  split <;> rfl

theorem narrowProvided_versions (next st : Resolved) (pkg : String) :
    (narrowProvided next st pkg).versions = st.versions := by
  unfold narrowProvided
  split <;> rfl

theorem narrowProvided_arch (next st : Resolved) (pkg : String) :
    (narrowProvided next st pkg).arch = st.arch := by
  unfold narrowProvided
  split <;> rfl

theorem narrowProvided_provided_ne (next st : Resolved) {p pkg : String} (h : p ≠ pkg) :
    (narrowProvided next st pkg).provided.lookup p = st.provided.lookup p := by
  unfold narrowProvided
  split
  · exact Finmap.lookup_insert_of_ne _ h
  · rfl

theorem narrowProvided_provided_subset (next st : Resolved) (pkg p : String) :
    setGetD (narrowProvided next st pkg).provided p ⊆ setGetD st.provided p := by
  by_cases hp : p = pkg
  · subst hp
    unfold narrowProvided
    split
    · rw [setGetD, Finmap.lookup_insert]
      exact Finset.inter_subset_left
    · exact Finset.Subset.refl _
  · rw [setGetD, narrowProvided_provided_ne next st hp]
    exact Finset.Subset.refl _

theorem narrowPkg_arch (next st : Resolved) (pkg : String) :
    (narrowPkg next st pkg).arch = st.arch := by
  rw [narrowPkg, narrowProvided_arch, narrowVersion_arch]

theorem narrowPkg_packages_subset (next st : Resolved) (pkg : String) :
    (narrowPkg next st pkg).packages ⊆ st.packages := by
  rw [narrowPkg, narrowProvided_packages]
  exact narrowVersion_packages_subset next st pkg

theorem narrowPkg_mem_ne (next st : Resolved) {p pkg : String} (h : p ≠ pkg) :
    p ∈ (narrowPkg next st pkg).packages ↔ p ∈ st.packages := by
  rw [narrowPkg, narrowProvided_packages]
  exact narrowVersion_mem_ne next st h

theorem narrowPkg_versions_ne (next st : Resolved) {p pkg : String} (h : p ≠ pkg) :
    (narrowPkg next st pkg).versions.lookup p = st.versions.lookup p := by
  rw [narrowPkg, narrowProvided_versions]
  exact narrowVersion_versions_ne next st h

theorem narrowPkg_versions_of_mem (next st : Resolved) {p pkg : String}
    (h : p ∈ (narrowPkg next st pkg).packages) :
    (narrowPkg next st pkg).versions.lookup p = st.versions.lookup p := by
  rw [narrowPkg, narrowProvided_packages] at h
  rw [narrowPkg, narrowProvided_versions]
  exact narrowVersion_versions_of_mem next st h

theorem narrowPkg_agrees (next st : Resolved) {pkg : String}
    (h : pkg ∈ (narrowPkg next st pkg).packages) :
    mapGetD st.versions pkg = mapGetD next.versions pkg := by
  rw [narrowPkg, narrowProvided_packages] at h
  exact narrowVersion_agrees next st h

theorem narrowPkg_provided_subset (next st : Resolved) (pkg p : String) :
    setGetD (narrowPkg next st pkg).provided p ⊆ setGetD st.provided p := by
  rw [narrowPkg]
  exact Finset.Subset.trans (narrowProvided_provided_subset next _ pkg p)
    (narrowVersion_provided_subset next st pkg p)

theorem narrowPkg_versions_cases (next st : Resolved) (pkg p : String) :
    (narrowPkg next st pkg).versions.lookup p = st.versions.lookup p ∨
      (narrowPkg next st pkg).versions.lookup p = none := by
  rw [narrowPkg, narrowProvided_versions]
  exact narrowVersion_versions_cases next st pkg p

/-! ## Properties of the whole per-package loop -/

theorem foldlNarrow_packages_subset (next : Resolved) :
    ∀ (L : List String) (st : Resolved),
      (L.foldl (narrowPkg next) st).packages ⊆ st.packages
  | [], _ => Finset.Subset.refl _
  | pkg :: L, st =>
    Finset.Subset.trans (foldlNarrow_packages_subset next L (narrowPkg next st pkg))
      (narrowPkg_packages_subset next st pkg)

theorem foldlNarrow_versions_of_mem (next : Resolved) :
    ∀ (L : List String) (st : Resolved) (p : String),
      p ∈ (L.foldl (narrowPkg next) st).packages →
        p ∈ st.packages ∧
          (L.foldl (narrowPkg next) st).versions.lookup p = st.versions.lookup p
  | [], _, _, h => ⟨h, rfl⟩
  | pkg :: L, st, p, h => by
    have ih := foldlNarrow_versions_of_mem next L (narrowPkg next st pkg) p h
    refine ⟨narrowPkg_packages_subset next st pkg ih.1, ?_⟩
    rw [List.foldl_cons] at *
    rw [ih.2, narrowPkg_versions_of_mem next st ih.1]

theorem foldlNarrow_agrees (next : Resolved) :
    ∀ (L : List String) (st : Resolved) (p : String),
      p ∈ (L.foldl (narrowPkg next) st).packages → p ∈ L →
        mapGetD st.versions p = mapGetD next.versions p
  | [], _, _, _, hL => absurd hL (List.not_mem_nil _)
  | pkg :: L, st, p, h, hL => by
    rw [List.foldl_cons] at h
    by_cases hp : p = pkg
    · subst hp
      have hmem : p ∈ (narrowPkg next st p).packages :=
        (foldlNarrow_versions_of_mem next L (narrowPkg next st p) p h).1
      exact narrowPkg_agrees next st hmem
    · have hL' : p ∈ L := by
        rcases List.mem_cons.mp hL with h' | h'
        · exact absurd h' hp
        · exact h'
      have := foldlNarrow_agrees next L (narrowPkg next st pkg) p h hL'
      rwa [mapGetD, narrowPkg_versions_ne next st hp] at this

theorem foldlNarrow_provided_subset (next : Resolved) :
    ∀ (L : List String) (st : Resolved) (p : String),
      setGetD ((L.foldl (narrowPkg next) st).provided) p ⊆ setGetD st.provided p
  | [], _, _ => Finset.Subset.refl _
  | pkg :: L, st, p =>
    Finset.Subset.trans (foldlNarrow_provided_subset next L (narrowPkg next st pkg) p)
      (narrowPkg_provided_subset next st pkg p)

theorem foldlNarrow_versions_cases (next : Resolved) :
    ∀ (L : List String) (st : Resolved) (p : String),
      (L.foldl (narrowPkg next) st).versions.lookup p = st.versions.lookup p ∨
        (L.foldl (narrowPkg next) st).versions.lookup p = none
  | [], _, _ => Or.inl rfl
  | pkg :: L, st, p => by
    rw [List.foldl_cons]
    rcases foldlNarrow_versions_cases next L (narrowPkg next st pkg) p with h | h
    · rw [h]
      exact narrowPkg_versions_cases next st pkg p
    · exact Or.inr h

/-! ## Properties of one fold step -/

theorem mem_keys_iff_isSome {β : Type} (m : Finmap (fun _ : String => β)) (p : String) :
    p ∈ m.keys ↔ (m.lookup p).isSome := by
  rw [Finmap.mem_keys, ← Finmap.lookup_isSome]

theorem unifyStep_packages_subset (acc next : Resolved) :
    (unifyStep acc next).packages ⊆ acc.packages := by
  unfold unifyStep
  split
  · exact Finset.Subset.refl _
  · exact Finset.Subset.trans (foldlNarrow_packages_subset next _ _)
      Finset.inter_subset_left

theorem unifyStep_versions_of_mem (acc next : Resolved) {p : String}
    (h : p ∈ (unifyStep acc next).packages) :
    (unifyStep acc next).versions.lookup p = acc.versions.lookup p := by
  revert h
  unfold unifyStep
  split
  · intro _
    rfl
  · intro h
    exact (foldlNarrow_versions_of_mem next _ _ p h).2

theorem unifyStep_provided_subset (acc next : Resolved) (p : String) :
    setGetD (unifyStep acc next).provided p ⊆ setGetD acc.provided p := by
  unfold unifyStep
  split
  · exact Finset.Subset.refl _
  · exact foldlNarrow_provided_subset next _ _ p

theorem unifyStep_versions_cases (acc next : Resolved) (p : String) :
    (unifyStep acc next).versions.lookup p = acc.versions.lookup p ∨
      (unifyStep acc next).versions.lookup p = none := by
  unfold unifyStep
  split
  · exact Or.inl rfl
  · exact foldlNarrow_versions_cases next _ _ p

theorem unifyStep_keys_invariant (acc next : Resolved)
    (hk : acc.packages ⊆ acc.versions.keys) :
    (unifyStep acc next).packages ⊆ (unifyStep acc next).versions.keys := by
  intro p hp
  have h1 : p ∈ acc.packages := unifyStep_packages_subset acc next hp
  have h2 := unifyStep_versions_of_mem acc next hp
  rw [mem_keys_iff_isSome, h2, ← mem_keys_iff_isSome]
  exact hk h1

/-- Soundness of one fold step: a package surviving the step was present in the
accumulator, is present in `next`'s resolution (given the data-model invariant
`packages = keys versions` for `next`), keeps its accumulator version, and
`next` resolved it to exactly that version. -/
theorem unifyStep_sound (acc next : Resolved)
    (hk : acc.packages ⊆ acc.versions.keys)
    (hinv : next.packages = next.versions.keys) :
    ∀ p ∈ (unifyStep acc next).packages,
      p ∈ acc.packages ∧
        (unifyStep acc next).versions.lookup p = acc.versions.lookup p ∧
        p ∈ next.packages ∧
        next.versions.lookup p = acc.versions.lookup p := by
  intro p hp
  have hmem : p ∈ acc.packages := unifyStep_packages_subset acc next hp
  refine ⟨hmem, unifyStep_versions_of_mem acc next hp, ?_⟩
  revert hp
  unfold unifyStep
  split
  · rename_i heq
    intro _
    have hv : acc.versions = next.versions := heq.1
    constructor
    · rw [hinv, ← hv]
      exact hk hmem
    · rw [← hv]
  · intro hp
    have hpL : p ∈ acc.packages ∩ next.packages :=
      (foldlNarrow_versions_of_mem next _ _ p hp).1
    have hpnext : p ∈ next.packages := (Finset.mem_inter.mp hpL).2
    refine ⟨hpnext, ?_⟩
    have hagree : mapGetD acc.versions p = mapGetD next.versions p :=
      foldlNarrow_agrees next (sortFinset (acc.packages ∩ next.packages))
        { acc with packages := acc.packages ∩ next.packages } p hp
        (mem_sortFinset.mpr hpL)
    -- Both lookups are `some`, so the defaulted equality lifts to the options.
    have hsa : (acc.versions.lookup p).isSome := by
      rw [← mem_keys_iff_isSome]
      exact hk hmem
    have hsn : (next.versions.lookup p).isSome := by
      rw [← mem_keys_iff_isSome, ← hinv]
      exact hpnext
    rcases Option.isSome_iff_exists.mp hsa with ⟨va, hva⟩
    rcases Option.isSome_iff_exists.mp hsn with ⟨vn, hvn⟩
    rw [hva, hvn]
    rw [mapGetD, mapGetD, hva, hvn] at hagree
    simpa using hagree.symm

/-! ## Properties of the whole fold -/

theorem accFold_sound :
    ∀ (rest : List Resolved) (acc : Resolved),
      acc.packages ⊆ acc.versions.keys →
      (∀ r ∈ rest, r.packages = r.versions.keys) →
      ∀ p ∈ (rest.foldl unifyStep acc).packages,
        p ∈ acc.packages ∧
          (rest.foldl unifyStep acc).versions.lookup p = acc.versions.lookup p ∧
          ∀ r ∈ rest, p ∈ r.packages ∧ r.versions.lookup p = acc.versions.lookup p
  | [], _, _, _, _, h => ⟨h, rfl, fun r hr => absurd hr (List.not_mem_nil r)⟩
  | next :: rest, acc, hk, hinv, p, h => by
    rw [List.foldl_cons] at h ⊢
    have hkstep := unifyStep_keys_invariant acc next hk
    have ih := accFold_sound rest (unifyStep acc next) hkstep
      (fun r hr => hinv r (List.mem_cons_of_mem next hr)) p h
    have hstep := unifyStep_sound acc next hk (hinv next (List.mem_cons_self next rest)) p ih.1
    refine ⟨hstep.1, ?_, ?_⟩
    · rw [ih.2.1, hstep.2.1]
    · intro r hr
      rcases List.mem_cons.mp hr with hr | hr
      · subst hr
        exact ⟨hstep.2.2.1, hstep.2.2.2⟩
      · have := ih.2.2 r hr
        exact ⟨this.1, by rw [this.2, hstep.2.1]⟩

/-! ## Decomposition of the result of unifyCore -/

theorem unifyCore_fst (originals : List String) (in0 : Resolved) (rest : List Resolved) :
    (unifyCore originals in0 rest).1 =
      (sortFinset (missingAfter originals in0 rest)).map
        (fun pkg =>
          let ver := mapGetD (originalVersions originals) pkg
          if ver ≠ "" then pkg ++ ver else pkg) ++
      (sortFinset (accAfter in0 rest).packages).map
        (fun pkg => pkg ++ "=" ++ mapGetD (accAfter in0 rest).versions pkg) := rfl

theorem unifyCore_snd (originals : List String) (in0 : Resolved) (rest : List Resolved) :
    (unifyCore originals in0 rest).2 =
      errorDiags (in0 :: rest) (missingAfter originals in0 rest) ++
        warnDiags (in0 :: rest) (accAfter in0 rest).packages
          (missingAfter originals in0 rest) := rfl

/-! ## Claim theorems -/

/-- C7: each fold step of one additional architecture only narrows the
accumulator: the resulting packages set is a subset of the previous one, every
versions entry is either kept unchanged or deleted (in particular every
surviving package keeps its pinned version), and every package's provided set
only shrinks.  Nothing is ever added. -/
theorem unifyStep_monotone_shrinking (acc next : Resolved) :
    (unifyStep acc next).packages ⊆ acc.packages ∧
      (∀ p ∈ (unifyStep acc next).packages,
        (unifyStep acc next).versions.lookup p = acc.versions.lookup p) ∧
      (∀ p, (unifyStep acc next).versions.lookup p = acc.versions.lookup p ∨
        (unifyStep acc next).versions.lookup p = none) ∧
      ∀ p, setGetD (unifyStep acc next).provided p ⊆ setGetD acc.provided p :=
  ⟨unifyStep_packages_subset acc next,
    fun _ hp => unifyStep_versions_of_mem acc next hp,
    unifyStep_versions_cases acc next,
    unifyStep_provided_subset acc next⟩

/-- C2: assuming every input satisfies the data-model invariant
`packages = keys versions`, every package pinned by the fold is rendered as
`name=version` in the merged list, is resolved by every input architecture,
and every input architecture resolved it to exactly the pinned version. -/
theorem unify_pinned_sound (originals : List String) (in0 : Resolved) (rest : List Resolved)
    (hinv : ∀ r ∈ in0 :: rest, r.packages = r.versions.keys) :
    ∀ p ∈ (accAfter in0 rest).packages,
      (p ++ "=" ++ mapGetD (accAfter in0 rest).versions p) ∈ (unifyCore originals in0 rest).1 ∧
        ∀ r ∈ in0 :: rest,
          p ∈ r.packages ∧
            r.versions.lookup p = some (mapGetD (accAfter in0 rest).versions p) := by
  intro p hp
  have h0 : in0.packages ⊆ in0.versions.keys := by
    rw [← hinv in0 (List.mem_cons_self in0 rest)]
  have hsound :
      p ∈ in0.packages ∧
        (accAfter in0 rest).versions.lookup p = in0.versions.lookup p ∧
        ∀ r ∈ rest, p ∈ r.packages ∧ r.versions.lookup p = in0.versions.lookup p :=
    accFold_sound rest ⟨"", in0.packages, in0.versions, in0.provided⟩ h0
      (fun r hr => hinv r (List.mem_cons_of_mem in0 hr)) p hp
  have hsome : ((accAfter in0 rest).versions.lookup p).isSome := by
    rw [hsound.2.1, ← mem_keys_iff_isSome, ← hinv in0 (List.mem_cons_self in0 rest)]
    exact hsound.1
  rcases Option.isSome_iff_exists.mp hsome with ⟨v, hv⟩
  have hvD : mapGetD (accAfter in0 rest).versions p = v := by
    rw [mapGetD, hv]
    rfl
  constructor
  · rw [unifyCore_fst]
    refine List.mem_append.mpr (Or.inr ?_)
    exact List.mem_map.mpr ⟨p, mem_sortFinset.mpr hp, rfl⟩
  · intro r hr
    rcases List.mem_cons.mp hr with hr' | hr'
    · subst hr'
      exact ⟨hsound.1, by rw [← hsound.2.1, hv, hvD]⟩
    · have h := hsound.2.2 r hr'
      exact ⟨h.1, by rw [h.2, ← hsound.2.1, hv, hvD]⟩

/-- C2 witness: a two-architecture instance satisfying the invariant, with the
pinned package `a` rendered as `a=1` and resolved to `1` by both inputs. -/
theorem unify_pinned_sound_witness :
    "a" ∈ (accAfter
        ⟨"x86", {"a"}, (∅ : VersionMap).insert "a" "1", ∅⟩
        [⟨"arm", {"a"}, (∅ : VersionMap).insert "a" "1", ∅⟩]).packages ∧
      ("a" ++ "=" ++ mapGetD (accAfter
        ⟨"x86", {"a"}, (∅ : VersionMap).insert "a" "1", ∅⟩
        [⟨"arm", {"a"}, (∅ : VersionMap).insert "a" "1", ∅⟩]).versions "a") ∈
        (unifyCore ["a"]
          ⟨"x86", {"a"}, (∅ : VersionMap).insert "a" "1", ∅⟩
          [⟨"arm", {"a"}, (∅ : VersionMap).insert "a" "1", ∅⟩]).1 := by
  refine ⟨by decide, ?_⟩
  exact (unify_pinned_sound ["a"]
    ⟨"x86", {"a"}, (∅ : VersionMap).insert "a" "1", ∅⟩
    [⟨"arm", {"a"}, (∅ : VersionMap).insert "a" "1", ∅⟩]
    (by decide) "a" (by decide)).1

/-- C9: an empty originals list yields an empty merged list and no
diagnostics, whatever the inputs are. -/
theorem unify_empty_originals (inputs : List Resolved) : unify [] inputs = some ([], []) := rfl

/-- C10: for a non-empty originals list and an empty inputs slice, the Go code
reaches the out-of-bounds read `inputs[0]` before producing anything; in the
total model the call yields no value. -/
theorem unify_empty_inputs (originals : List String) (h : originals ≠ []) :
    unify originals [] = none := by
  unfold unify
  rw [if_neg h]

/-- C10 witness: the concrete call `unify ["a"] []` yields no value. -/
theorem unify_empty_inputs_witness : unify ["a"] [] = none :=
  unify_empty_inputs ["a"] (by decide)

/-! ## The original-specifier round trip (C6) -/

theorem splitName_append_splitConstraint (s : String) :
    splitName s ++ splitConstraint s = s := by
  cases s with
  | mk data =>
    show String.mk (data.takeWhile _) ++ String.mk (data.dropWhile _) = String.mk data
    rw [show ∀ a b : List Char, String.mk a ++ String.mk b = String.mk (a ++ b)
      from fun a b => rfl]
    rw [List.takeWhile_append_dropWhile]

theorem originalVersions_lookup_not_mem :
    ∀ (l : List String) (m : VersionMap) (n : String), n ∉ l.map splitName →
      (l.foldl (fun m orig => m.insert (splitName orig) (splitConstraint orig)) m).lookup n =
        m.lookup n
  | [], _, _, _ => rfl
  | o :: l, m, n, h => by
    have hno : n ≠ splitName o := by
      intro he
      refine h ?_
      rw [List.map_cons, he]
      exact List.mem_cons_self _ _
    have hnl : n ∉ l.map splitName := fun hm => h (by
      rw [List.map_cons]
      exact List.mem_cons_of_mem _ hm)
    rw [List.foldl_cons, originalVersions_lookup_not_mem l _ n hnl,
      Finmap.lookup_insert_of_ne _ hno]

theorem originalVersions_lookup_mem :
    ∀ (l : List String) (m : VersionMap) (orig : String), orig ∈ l →
      (l.map splitName).Nodup →
      (l.foldl (fun m orig => m.insert (splitName orig) (splitConstraint orig)) m).lookup
          (splitName orig) =
        some (splitConstraint orig)
  | [], _, _, h, _ => absurd h (List.not_mem_nil _)
  | o :: l, m, orig, h, hnodup => by
    rw [List.map_cons, List.nodup_cons] at hnodup
    rcases List.mem_cons.mp h with h' | h'
    · subst h'
      rw [List.foldl_cons, originalVersions_lookup_not_mem l _ _ hnodup.1,
        Finmap.lookup_insert]
    · rw [List.foldl_cons]
      exact originalVersions_lookup_mem l _ orig h' hnodup.2

theorem mem_originalNames :
    ∀ (l : List String) (s : Finset String) (n : String),
      n ∈ l.foldl (fun s orig => insert (splitName orig) s) s ↔
        n ∈ s ∨ ∃ orig ∈ l, splitName orig = n
  | [], _, _ => by simp
  | o :: l, s, n => by
    rw [List.foldl_cons, mem_originalNames l _ n, Finset.mem_insert]
    constructor
    · rintro (⟨h | h⟩ | ⟨orig, ho, hn⟩)
      · exact Or.inr ⟨o, List.mem_cons_self o l, h.symm⟩
      · exact Or.inl h
      · exact Or.inr ⟨orig, List.mem_cons_of_mem o ho, hn⟩
    · rintro (h | ⟨orig, ho, hn⟩)
      · exact Or.inl (Or.inr h)
      · rcases List.mem_cons.mp ho with h' | h'
        · subst h'
          exact Or.inl (Or.inl hn.symm)
        · exact Or.inr ⟨orig, h', hn⟩

/-- C6: splitting an original specifier at the first constraint character and
re-concatenating reproduces it exactly; consequently a declared specifier whose
parsed name ends up missing (no pin, no rescue) appears verbatim in the merged
list (assuming the spec's invariant that declared names are unique). -/
theorem unify_constraint_preserved (originals : List String) (in0 : Resolved)
    (rest : List Resolved) (orig : String)
    (horig : orig ∈ originals) (hnodup : (originals.map splitName).Nodup)
    (hmiss : splitName orig ∈ missingAfter originals in0 rest) :
    splitName orig ++ splitConstraint orig = orig ∧
      orig ∈ (unifyCore originals in0 rest).1 := by
  refine ⟨splitName_append_splitConstraint orig, ?_⟩
  rw [unifyCore_fst]
  refine List.mem_append.mpr (Or.inl ?_)
  refine List.mem_map.mpr ⟨splitName orig, mem_sortFinset.mpr hmiss, ?_⟩
  have hver : mapGetD (originalVersions originals) (splitName orig) = splitConstraint orig := by
    rw [mapGetD, originalVersions, originalVersions_lookup_mem originals ∅ orig horig hnodup]
    rfl
  show (if mapGetD (originalVersions originals) (splitName orig) ≠ "" then
      splitName orig ++ mapGetD (originalVersions originals) (splitName orig)
    else splitName orig) = orig
  rw [hver]
  by_cases hc : splitConstraint orig = ""
  · rw [if_neg (by simp [hc])]
    conv_rhs => rw [← splitName_append_splitConstraint orig]
    rw [hc]
    exact (String.append_empty _).symm
  · rw [if_pos hc]
    exact splitName_append_splitConstraint orig

/-- C6 witness: the declared specifier `m>1` is missing (the two architectures
disagree on `m`) and the merged list contains the literal `m>1`. -/
theorem unify_constraint_preserved_witness :
    splitName "m>1" ++ splitConstraint "m>1" = "m>1" ∧
      "m>1" ∈ (unifyCore ["m>1"]
        ⟨"a", {"m"}, (∅ : VersionMap).insert "m" "1", ∅⟩
        [⟨"b", {"m"}, (∅ : VersionMap).insert "m" "2", ∅⟩]).1 :=
  unify_constraint_preserved ["m>1"]
    ⟨"a", {"m"}, (∅ : VersionMap).insert "m" "1", ∅⟩
    [⟨"b", {"m"}, (∅ : VersionMap).insert "m" "2", ∅⟩]
    "m>1" (by decide) (by decide) (by decide)

/-! ## Concrete fixtures

Small `resolved` values exercising the corner cases of the fold; all of them
satisfy the data-model invariants (`packages` equals the key set of `versions`,
`provided` keys are a subset of `packages`). -/

/-- Architecture `a`: resolves `q` at version `1`, which provides `m`. -/
def archA : Resolved :=
  ⟨"a", {"q"}, (∅ : VersionMap).insert "q" "1", (∅ : SetMap).insert "q" {"m"}⟩

/-- Architecture `b`: resolves `q` at version `1`, providing nothing. -/
def archB : Resolved := ⟨"b", {"q"}, (∅ : VersionMap).insert "q" "1", ∅⟩

/-- Architecture `c`: resolves nothing. -/
def archC : Resolved := ⟨"c", ∅, ∅, ∅⟩

/-- C1: `unify` is *not* order independent.  The inputs `archA`, `archB`,
`archC` satisfy the data-model invariant, yet folding in the order
`[archA, archB, archC]` leaves `m` missing (an error diagnostic and the literal
`m` in the merged list: `archB` first narrows the dropped provider `q`'s
provides entry to `∅`), while the permuted order `[archA, archC, archB]` drops
`q` before the narrowing so its stale provides entry `{m}` survives and rescues
`m` (no error, no `m` in the merged list). -/
theorem unify_order_dependent :
    List.Perm [archA, archC, archB] [archA, archB, archC] ∧
      (archA.packages = archA.versions.keys ∧ archB.packages = archB.versions.keys ∧
        archC.packages = archC.versions.keys) ∧
      unify ["m"] [archA, archB, archC] =
        some (["m"],
          [Diag.mk Severity.err "Unable to lock package \"m\" to a consistent version"
            " (a, b, c)",
           Diag.mk Severity.warn "unable to lock certain packages for a" "[q]",
           Diag.mk Severity.warn "unable to lock certain packages for b" "[q]"]) ∧
      unify ["m"] [archA, archC, archB] =
        some ([],
          [Diag.mk Severity.warn "unable to lock certain packages for a" "[q]",
           Diag.mk Severity.warn "unable to lock certain packages for b" "[q]"]) := by
  refine ⟨by decide, ⟨by decide, by decide, by decide⟩, by decide, by decide⟩

/-- C3: a name can be rescued by the provides entry of a package that was
*dropped* from the unified set: after folding `[archA, archC]` the provider `q`
is no longer in `acc.packages` (architecture `c` does not resolve it), yet its
retained entry still lists `m`, and the rescue pass removes `m` from the
missing set — no error diagnostic and no `m` in the merged list. -/
theorem rescue_by_dropped_provider :
    "q" ∉ (accAfter archA [archC]).packages ∧
      "m" ∈ setGetD (accAfter archA [archC]).provided "q" ∧
      missingAfter ["m"] archA [archC] = ∅ ∧
      unify ["m"] [archA, archC] =
        some ([], [Diag.mk Severity.warn "unable to lock certain packages for a" "[q]"]) := by
  refine ⟨by decide, by decide, by decide, by decide⟩

/-- First architecture for the mutation fixture: `q` provides `x` and `y`. -/
def archP0 : Resolved :=
  ⟨"a", {"q"}, (∅ : VersionMap).insert "q" "1", (∅ : SetMap).insert "q" {"x", "y"}⟩

/-- Second architecture for the mutation fixture: `q` provides only `x`. -/
def archP1 : Resolved :=
  ⟨"b", {"q"}, (∅ : VersionMap).insert "q" "1", (∅ : SetMap).insert "q" {"x"}⟩

/-- C8: the accumulator's `provided` field is seeded as an alias of
`inputs[0].provided` (no clone, unlike `packages` and `versions`), and the fold
narrows it in place; after the fold it differs from the first input's original
map, so the Go call mutates its argument. -/
theorem unify_mutates_first_provided :
    (accAfter archP0 [archP1]).provided ≠ archP0.provided ∧
      (accAfter archP0 [archP1]).provided = (∅ : SetMap).insert "q" {"x"} := by
  refine ⟨by decide, by decide⟩

/-- Architecture resolving `m` at `1.0` (for the cluster counterexample). -/
def archM : Resolved := ⟨"a", {"m"}, (∅ : VersionMap).insert "m" "1.0", ∅⟩

/-- Architecture resolving nothing (for the cluster counterexample). -/
def archN : Resolved := ⟨"b", ∅, ∅, ∅⟩

/-- C4 counterexample: architecture `b` does not resolve `m` at all, yet the
error diagnostic's detail contains the cluster `" (b)"` — the architectures
lacking the name are grouped under the empty version string, not omitted. -/
theorem absent_arch_cluster_counterexample :
    unify ["m"] [archM, archN] =
      some (["m"],
        [Diag.mk Severity.err "Unable to lock package \"m\" to a consistent version"
          " (b), 1.0 (a)"]) ∧
      (" (b), 1.0 (a)" : String) ≠ "1.0 (a)" := by
  refine ⟨by decide, by decide⟩

/-- Architecture with an empty resolution named `x` (for the full-agreement
counterexample). -/
def archX : Resolved := ⟨"x", ∅, ∅, ∅⟩

/-- C5 counterexample: with a single input (so all inputs trivially have
identical `versions` and `provided`), a declared name the resolver did not
return yields a non-empty diagnostics list and a merged list that is not the
rendered resolved set. -/
theorem full_agreement_counterexample :
    unify ["m"] [archX] =
      some (["m"],
        [Diag.mk Severity.err "Unable to lock package \"m\" to a consistent version"
          " (x)"]) ∧
      ([Diag.mk Severity.err "Unable to lock package \"m\" to a consistent version"
          " (x)"] : List Diag) ≠ [] := by
  refine ⟨by decide, by decide⟩

/-! ## Full agreement (C5) -/

theorem foldl_unifyStep_fast :
    ∀ (rest : List Resolved) (acc : Resolved),
      (∀ r ∈ rest, r.versions = acc.versions ∧ r.provided = acc.provided) →
      rest.foldl unifyStep acc = acc
  | [], _, _ => rfl
  | r :: rest, acc, h => by
    have hstep : unifyStep acc r = acc := by
      have hh := h r (List.mem_cons_self r rest)
      unfold unifyStep
      rw [if_pos ⟨hh.1.symm, hh.2.symm⟩]
    rw [List.foldl_cons, hstep]
    exact foldl_unifyStep_fast rest acc fun r' hr' => h r' (List.mem_cons_of_mem r hr')

theorem foldRescue_subset (provided : SetMap) :
    ∀ (ks : List String) (miss : Finset String),
      ks.foldl
        (fun miss k =>
          if ((setGetD provided k) ∩ miss).Nonempty then miss \ setGetD provided k else miss)
        miss ⊆ miss
  | [], _ => Finset.Subset.refl _
  | k :: ks, miss => by
    rw [List.foldl_cons]
    refine Finset.Subset.trans (foldRescue_subset provided ks _) ?_
    split
    · exact Finset.sdiff_subset
    · exact Finset.Subset.refl _

theorem foldRescue_kills (provided : SetMap) {n k : String} (hk : n ∈ setGetD provided k) :
    ∀ (ks : List String) (miss : Finset String), k ∈ ks →
      n ∉ ks.foldl
        (fun miss k =>
          if ((setGetD provided k) ∩ miss).Nonempty then miss \ setGetD provided k else miss)
        miss
  | [], _, hks => absurd hks (List.not_mem_nil _)
  | k' :: ks, miss, hks => by
    rw [List.foldl_cons]
    by_cases he : k' = k
    · subst he
      have hout : n ∉
          (if ((setGetD provided k') ∩ miss).Nonempty then miss \ setGetD provided k'
            else miss) := by
        by_cases hn : n ∈ miss
        · rw [if_pos ⟨n, Finset.mem_inter.mpr ⟨hk, hn⟩⟩]
          intro hmem
          exact (Finset.mem_sdiff.mp hmem).2 hk
        · split
          · intro hmem
            exact hn (Finset.mem_sdiff.mp hmem).1
          · exact hn
      intro hmem
      exact hout (foldRescue_subset provided ks _ hmem)
    · have hks' : k ∈ ks := by
        rcases List.mem_cons.mp hks with h' | h'
        · exact absurd h'.symm he
        · exact h'
      exact foldRescue_kills provided hk ks _ hks'

theorem rescue_subset (provided : SetMap) (missing : Finset String) :
    rescue provided missing ⊆ missing :=
  foldRescue_subset provided _ missing

/-- A name provided by any entry of the map is never left in the rescued set. -/
theorem rescue_eliminates (provided : SetMap) (missing : Finset String) {n : String}
    (hn : ∃ k, n ∈ setGetD provided k) : n ∉ rescue provided missing := by
  rcases hn with ⟨k, hk⟩
  have hks : (provided.lookup k).isSome := by
    rcases h : provided.lookup k with _ | s
    · rw [setGetD, h] at hk
      exact absurd hk (Finset.not_mem_empty n)
    · rfl
  have hmem : k ∈ sortFinset provided.keys := by
    rw [mem_sortFinset, mem_keys_iff_isSome]
    exact hks
  exact foldRescue_kills provided hk _ missing hmem

theorem sortFinset_empty : sortFinset (∅ : Finset String) = [] := rfl

/-- C5 (amended): when every architecture has identical `versions` and
`provided` maps, every input satisfies the data-model invariant
`packages = keys versions`, the originals list is non-empty (else the empty
fast-return applies, property C9), and every declared name is either resolved
or provided by some entry, the merged list is exactly the resolved package
set rendered `name=version` in sorted order, with no diagnostics. -/
theorem unify_full_agreement (originals : List String) (in0 : Resolved) (rest : List Resolved)
    (hne : originals ≠ [])
    (hv : ∀ r ∈ rest, r.versions = in0.versions ∧ r.provided = in0.provided)
    (hinv : ∀ r ∈ in0 :: rest, r.packages = r.versions.keys)
    (hres : ∀ n ∈ originalNames originals,
      n ∈ in0.packages ∨ ∃ k, n ∈ setGetD in0.provided k) :
    unify originals (in0 :: rest) =
      some ((sortFinset in0.packages).map (fun p => p ++ "=" ++ mapGetD in0.versions p), []) ∧
      List.Sorted strLe (sortFinset in0.packages) ∧
      (sortFinset in0.packages).Nodup ∧
      ∀ p, p ∈ sortFinset in0.packages ↔ p ∈ in0.packages := by
  have hacc : accAfter in0 rest = ⟨"", in0.packages, in0.versions, in0.provided⟩ :=
    foldl_unifyStep_fast rest ⟨"", in0.packages, in0.versions, in0.provided⟩ hv
  have hmiss : missingAfter originals in0 rest = ∅ := by
    rw [missingAfter, hacc]
    show (if originalNames originals \ in0.packages = ∅ then
        originalNames originals \ in0.packages
      else rescue in0.provided (originalNames originals \ in0.packages)) = ∅
    split
    · assumption
    · rw [Finset.eq_empty_iff_forall_not_mem]
      intro n hn
      have hn0 : n ∈ originalNames originals \ in0.packages :=
        rescue_subset in0.provided _ hn
      rcases hres n (Finset.mem_sdiff.mp hn0).1 with h | h
      · exact (Finset.mem_sdiff.mp hn0).2 h
      · exact rescue_eliminates in0.provided _ h hn
  have hpkgs : ∀ r ∈ rest, r.packages = in0.packages := by
    intro r hr
    rw [hinv r (List.mem_cons_of_mem in0 hr), (hv r hr).1,
      ← hinv in0 (List.mem_cons_self in0 rest)]
  have hwarn :
      warnDiags (in0 :: rest) in0.packages (∅ : Finset String) = [] := by
    rw [warnDiags, List.filterMap_eq_nil_iff]
    intro r hr
    have hempty : (r.packages \ in0.packages) \ (∅ : Finset String) = ∅ := by
      rcases List.mem_cons.mp hr with h' | h'
      · subst h'
        simp
      · rw [hpkgs r h']
        simp
    show (if ((r.packages \ in0.packages) \ (∅ : Finset String)) = ∅ then none
        else some (Diag.mk Severity.warn
          ("unable to lock certain packages for " ++ r.arch)
          ("[" ++ String.intercalate " "
            (sortFinset ((r.packages \ in0.packages) \ (∅ : Finset String))) ++ "]"))) = none
    rw [if_pos hempty]
  have hcore : unifyCore originals in0 rest =
      ((sortFinset in0.packages).map (fun p => p ++ "=" ++ mapGetD in0.versions p), []) := by
    rw [Prod.ext_iff]
    constructor
    · rw [unifyCore_fst, hmiss, hacc, sortFinset_empty]
      rfl
    · rw [unifyCore_snd, hmiss, hacc]
      show errorDiags (in0 :: rest) ∅ ++
          warnDiags (in0 :: rest) in0.packages (∅ : Finset String) = []
      rw [hwarn]
      rfl
  refine ⟨?_, sortFinset_sorted _, sortFinset_nodup _, fun p => mem_sortFinset⟩
  show (if originals = [] then some ([], []) else some (unifyCore originals in0 rest)) =
    some ((sortFinset in0.packages).map (fun p => p ++ "=" ++ mapGetD in0.versions p), [])
  rw [if_neg hne, hcore]

/-- C5 witness: two agreeing architectures resolving `a=1`; the merged list is
`[a=1]` and there are no diagnostics. -/
theorem unify_full_agreement_witness :
    unify ["a"]
        [⟨"x86", {"a"}, (∅ : VersionMap).insert "a" "1", ∅⟩,
         ⟨"arm", {"a"}, (∅ : VersionMap).insert "a" "1", ∅⟩] =
      some ((sortFinset ({"a"} : Finset String)).map
        (fun p => p ++ "=" ++ mapGetD ((∅ : VersionMap).insert "a" "1") p), []) :=
  (unify_full_agreement ["a"]
    ⟨"x86", {"a"}, (∅ : VersionMap).insert "a" "1", ∅⟩
    [⟨"arm", {"a"}, (∅ : VersionMap).insert "a" "1", ∅⟩]
    (by decide) (by decide) (by decide) (fun n hn => Or.inl hn)).1

/-! ## Error-cluster structure (C4)

The declarative counterparts of the cluster map: group the input architectures
by the version each one resolved for the missing package, where an architecture
that did not resolve the package at all reads the zero value `""` out of its
versions map and is therefore grouped under the empty version. -/

/-- The distinct versions the inputs resolved for `pkg` (`""` for inputs that
did not resolve it). -/
def versionsOf (inputs : List Resolved) (pkg : String) : Finset String :=
  (inputs.map (fun i => mapGetD i.versions pkg)).toFinset

/-- The arch names of the inputs that resolved `pkg` to exactly `v` (for
`v = ""`, the inputs that did not resolve `pkg`). -/
def archsWithVersion (inputs : List Resolved) (pkg v : String) : Finset String :=
  ((inputs.filter (fun i => mapGetD i.versions pkg = v)).map Resolved.arch).toFinset

theorem clusters_fold_getD (pkg v : String) :
    ∀ (inputs : List Resolved) (s : SetMap),
      setGetD
        (inputs.foldl
          (fun s i =>
            s.insert (mapGetD i.versions pkg) (setGetD s (mapGetD i.versions pkg) ∪ {i.arch}))
          s) v =
      setGetD s v ∪ archsWithVersion inputs pkg v
  | [], s => by
    simp [archsWithVersion]
  | i :: inputs, s => by
    rw [List.foldl_cons, clusters_fold_getD pkg v inputs]
    by_cases h : mapGetD i.versions pkg = v
    · rw [show setGetD (s.insert (mapGetD i.versions pkg)
          (setGetD s (mapGetD i.versions pkg) ∪ {i.arch})) v =
          setGetD s v ∪ {i.arch} by rw [h, setGetD, Finmap.lookup_insert]; rfl]
      rw [show archsWithVersion (i :: inputs) pkg v =
          insert i.arch (archsWithVersion inputs pkg v) by
        rw [archsWithVersion, archsWithVersion, List.filter_cons_of_pos (by simp [h]),
          List.map_cons, List.toFinset_cons]]
      rw [Finset.insert_eq, Finset.union_assoc]
    · rw [show setGetD (s.insert (mapGetD i.versions pkg)
          (setGetD s (mapGetD i.versions pkg) ∪ {i.arch})) v = setGetD s v by
        rw [setGetD, Finmap.lookup_insert_of_ne _ (fun he => h he.symm)]; rfl]
      rw [show archsWithVersion (i :: inputs) pkg v = archsWithVersion inputs pkg v by
        rw [archsWithVersion, archsWithVersion, List.filter_cons_of_neg (by simp [h])]]

theorem clusters_getD (inputs : List Resolved) (pkg v : String) :
    setGetD (clusters inputs pkg) v = archsWithVersion inputs pkg v := by
  rw [clusters, clusters_fold_getD]
  rw [show setGetD (∅ : SetMap) v = ∅ from rfl, Finset.empty_union]

theorem clusters_fold_mem_keys (pkg v : String) :
    ∀ (inputs : List Resolved) (s : SetMap),
      v ∈ (inputs.foldl
          (fun s i =>
            s.insert (mapGetD i.versions pkg) (setGetD s (mapGetD i.versions pkg) ∪ {i.arch}))
          s).keys ↔
        v ∈ s.keys ∨ v ∈ versionsOf inputs pkg
  | [], s => by
    simp [versionsOf]
  | i :: inputs, s => by
    rw [List.foldl_cons, clusters_fold_mem_keys pkg v inputs]
    rw [Finmap.mem_keys, Finmap.mem_insert, ← Finmap.mem_keys]
    rw [show (v ∈ versionsOf (i :: inputs) pkg) =
        (v = mapGetD i.versions pkg ∨ v ∈ versionsOf inputs pkg) by
      rw [versionsOf, versionsOf, List.map_cons, List.toFinset_cons, Finset.mem_insert]]
    tauto

theorem clusters_keys (inputs : List Resolved) (pkg : String) :
    (clusters inputs pkg).keys = versionsOf inputs pkg := by
  ext v
  rw [clusters, clusters_fold_mem_keys]
  simp

/-- C4 (amended): the diagnostics of `unify` are exactly one error per
still-missing name, in sorted name order, whose detail lists the
`"version (archs)"` clusters sorted lexicographically, where the clusters group
*all* input architectures by the version each resolved for the name — an
architecture that did not resolve the name reads the zero value `""` from its
versions map and is grouped under the empty version (it is not omitted) —
followed by the per-architecture warnings. -/
theorem unify_error_clusters (originals : List String) (in0 : Resolved) (rest : List Resolved) :
    (unifyCore originals in0 rest).2 =
      (sortFinset (missingAfter originals in0 rest)).map
        (fun pkg =>
          Diag.mk Severity.err
            ("Unable to lock package \"" ++ pkg ++ "\" to a consistent version")
            (String.intercalate ", "
              (List.insertionSort strLe
                ((sortFinset (versionsOf (in0 :: rest) pkg)).map
                  (fun v =>
                    v ++ " (" ++ String.intercalate ", "
                      (sortFinset (archsWithVersion (in0 :: rest) pkg v)) ++ ")"))))) ++
        warnDiags (in0 :: rest) (accAfter in0 rest).packages
          (missingAfter originals in0 rest) := by
  rw [unifyCore_snd]
  congr 1
  rw [errorDiags]
  refine List.map_congr_left ?_
  intro pkg _
  rw [clusterStrings, clusters_keys]
  have hfun :
      (fun v => v ++ " (" ++ String.intercalate ", "
          (sortFinset (setGetD (clusters (in0 :: rest) pkg) v)) ++ ")") =
      fun v => v ++ " (" ++ String.intercalate ", "
          (sortFinset (archsWithVersion (in0 :: rest) pkg v)) ++ ")" :=
    funext fun v => by rw [clusters_getD]
  rw [hfun]
